import Mathlib

/-!
# Verification of the UC Merced dataset adapter

Shallow embedding of `src/tensorflow_datasets/image/uc_merced.py` and proofs
about it.  The directory tree handed to `_generate_examples` is modelled as a
list of label directories, each holding a list of base filenames; the external
image decoder (`PIL` behind `_load_tif`) is a parameter `dec : String → Option
Image` mapping a full file path to its decoded pixel array (`none` models an
`ImageDecodeError`).  Generator runs are finite, so a run is modelled as the
pair of the list of items yielded before termination and an optional error
(the path of the first file whose decode raised).
-/

/-! ## POSIX path helpers (`os.path.join`, `os.path.basename`) -/

/-- Does the string start with a slash (`b.startswith("/")`)? -/
def startsWithSlash (s : String) : Bool :=
  match s.data with
  | c :: _ => c = '/'
  | [] => false

/-- Does the string end with a slash? -/
def endsWithSlash (s : String) : Bool :=
  s.data.getLast? = some '/'

/-- `os.path.join a b` for POSIX paths, two arguments: if `b` is absolute it
wins; otherwise a separator is inserted unless `a` is empty or already ends
with one. -/
def osPathJoin (a b : String) : String :=
  if startsWithSlash b then b
  else if a = "" || endsWithSlash a then a ++ b
  else a ++ "/" ++ b

/-- Single step of the `os.path.basename` scan: a slash resets the current
component, any other character extends it. -/
def basenameStep (acc : List Char) (c : Char) : List Char :=
  if c = '/' then [] else acc.concat c

/-- `os.path.basename`: the part of the path after the last slash. -/
def basename (s : String) : String :=
  ⟨s.data.foldl basenameStep []⟩

/-- The glob pattern `*.tif` used by `_generate_examples` (line 113): a
directory entry matches iff it ends in `.tif`. -/
def isTif (s : String) : Bool :=
  ['.', 't', 'i', 'f'].isSuffixOf s.data

/-! ## Constants of `uc_merced.py` -/

/-- The fixed label catalog `_LABELS` (lines 44–66). -/
def _LABELS : List String :=
  ["agricultural", "airplane", "baseballdiamond", "beach", "buildings",
   "chaparral", "denseresidential", "forest", "freeway", "golfcourse",
   "harbor", "intersection", "mediumresidential", "mobilehomepark",
   "overpass", "parkinglot", "river", "runway", "sparseresidential",
   "storagetanks", "tenniscourt"]

/-- `_ZIP_SUBDIR` (line 69): subdirectory of the extracted archive holding the
label folders. -/
def _ZIP_SUBDIR : String := "UCMerced_LandUse/Images"

/-! ## Versions and the S3 experiment gate -/

/-- A `tfds.core.Version`: a semantic version triple. -/
structure Version where
  major : Nat
  minor : Nat
  patch : Nat
deriving Repr, DecidableEq

/-- `UcMerced.VERSION` (line 75): `0.0.1`, declared with the S3 experiment
explicitly off. -/
def VERSION : Version := ⟨0, 0, 1⟩

/-- `UcMerced.SUPPORTED_VERSIONS` (lines 77–80): `2.0.0` and `1.0.0`. -/
def SUPPORTED_VERSIONS : List Version := [⟨2, 0, 0⟩, ⟨1, 0, 0⟩]

/-- Semver comparison: is `a` at or above `b`? -/
def Version.atLeast (a b : Version) : Bool :=
  b.major < a.major ||
    (b.major = a.major &&
      (b.minor < a.minor || (b.minor = a.minor && b.patch ≤ a.patch)))

/-- Modelled from the spec: `tfds.core.Version.implements(Experiment.S3)` is
framework code not under `src/`.  Per the spec, versions at or above a
threshold (`1.0.0`, the version history's "S3" release) use explicit string
keys per record, and versions below it emit records unkeyed.  This agrees
with the source constants: `VERSION = 0.0.1` carries an explicit
`S3: False`, while both `SUPPORTED_VERSIONS` are at or above `1.0.0`. -/
def implementsS3 (v : Version) : Bool :=
  v.atLeast ⟨1, 0, 0⟩

/-! ## Data model of the directory tree and the record stream -/

/-- One label-level subdirectory of the split source path: its name as
returned by `tf.io.gfile.listdir`, and the base filenames of its entries. -/
structure LabelDir where
  name : String
  files : List String
deriving Repr, DecidableEq

/-- The record dict built at lines 116–120: decoded image, the raw label
string (the folder name — integer encoding happens downstream in the
framework's `ClassLabel` feature), and the base filename. -/
structure Record (Image : Type) where
  image : Image
  label : String
  filename : String
deriving Repr, DecidableEq

/-- One yielded item: `yield filename, record` under S3 (line 122), bare
`yield record` otherwise (line 124). -/
inductive Emitted (Image : Type) where
  | keyed (key : String) (record : Record Image)
  | unkeyed (record : Record Image)
deriving Repr, DecidableEq

/-- The underlying record of an item, with its key (if any) stripped. -/
def Emitted.record {Image : Type} : Emitted Image → Record Image
  | .keyed _ r => r
  | .unkeyed r => r

/-- The keys of a run's items (present only on `keyed` items). -/
def keysOf {Image : Type} (items : List (Emitted Image)) : List String :=
  items.filterMap fun e =>
    match e with
    | .keyed k _ => some k
    | .unkeyed _ => none

/-- Full path of file `f` inside label folder `label` under the split source
`path`, as built by `os.path.join(path, label, "*.tif")` and returned by
glob. -/
def fullPath (path label f : String) : String :=
  osPathJoin (osPathJoin path label) f

/-- Inner loop of `_generate_examples` (lines 113–124) over the glob matches
of one label folder: each file is decoded (`_load_tif`), its base name taken,
a record built and yielded keyed or unkeyed.  A decode failure raises, ending
the run with the failing path; items yielded before it are kept. -/
def genFiles {Image : Type} (s3 : Bool) (dec : String → Option Image)
    (path label : String) :
    List String → List (Emitted Image) × Option String
  | [] => ([], none)
  | f :: fs =>
    let p := fullPath path label f
    match dec p with
    | none => ([], some p)
    | some image =>
      let filename := basename p
      let record : Record Image := ⟨image, label, filename⟩
      let item := if s3 then Emitted.keyed filename record
                  else Emitted.unkeyed record
      let rest := genFiles s3 dec path label fs
      (item :: rest.1, rest.2)

/-- `_generate_examples(path)` (lines 110–124): outer loop over
`tf.io.gfile.listdir(path)`, globbing `*.tif` in each label folder.  The
result is the list of items yielded and, if a decode raised, the path of the
first failing file. -/
def _generate_examples {Image : Type} (s3 : Bool) (dec : String → Option Image)
    (path : String) :
    List LabelDir → List (Emitted Image) × Option String
  | [] => ([], none)
  | d :: ds =>
    let here := genFiles s3 dec path d.name (d.files.filter isTif)
    match here.2 with
    | some e => (here.1, some e)
    | none =>
      let rest := _generate_examples s3 dec path ds
      (here.1 ++ rest.1, rest.2)

/-- The flattened sequence of (label, base filename) pairs the generator
visits: label folders in listdir order, glob matches within each. -/
def matchedFiles (tree : List LabelDir) : List (String × String) :=
  tree.flatMap fun d => (d.files.filter isTif).map fun f => (d.name, f)

/-- Does the decoder succeed on the matched pair `q = (label, file)`? -/
def decOk {Image : Type} (dec : String → Option Image) (path : String)
    (q : String × String) : Bool :=
  (dec (fullPath path q.1 q.2)).isSome

/-- The generator's run replayed over the flattened matched-file sequence;
proved equal to `_generate_examples` below and used to state stream
properties. -/
def genSpec {Image : Type} (s3 : Bool) (dec : String → Option Image)
    (path : String) :
    List (String × String) → List (Emitted Image) × Option String
  | [] => ([], none)
  | q :: qs =>
    let p := fullPath path q.1 q.2
    match dec p with
    | none => ([], some p)
    | some image =>
      let filename := basename p
      let record : Record Image := ⟨image, q.1, filename⟩
      let item := if s3 then Emitted.keyed filename record
                  else Emitted.unkeyed record
      let rest := genSpec s3 dec path qs
      (item :: rest.1, rest.2)

/-! ## `_split_generators` -/

/-- A `tfds.core.SplitGenerator` as constructed at lines 103–107: split name,
shard count, and the `path` keyword argument passed to the generator. -/
structure SplitGenerator where
  name : String
  num_shards : Nat
  gen_path : String
deriving Repr, DecidableEq

/-- Modelled from the spec: `tfds.Split.TRAIN` is a framework constant not
under `src/`; the spec names the single split "train". -/
def Split_TRAIN : String := "train"

/-- `_split_generators` (lines 99–108): the external download manager's
extraction root is the parameter; one TRAIN split with one shard, rooted at
the fixed archive subdirectory. -/
def _split_generators (fetchedRoot : String) : List SplitGenerator :=
  [⟨Split_TRAIN, 1, osPathJoin fetchedRoot _ZIP_SUBDIR⟩]

/-! ## Label encoding (framework side) -/

/-- Modelled from the spec: the Label Catalog's `index_of(name)` contract
(spec §4.1); in the code this lookup lives in the framework's
`tfds.features.ClassLabel(names=_LABELS)` feature declared at line 91, not
under `src/`.  Returns the position of `name` in the catalog, `none` standing
for `UnknownLabelError`. -/
def index_of (name : String) : List String → Option Nat
  | [] => none
  | l :: ls => if l = name then some 0 else (index_of name ls).map (· + 1)

/-- Modelled from the spec: the framework's record-encoding stage, which maps
each pulled record's label string to its catalog index (spec §3 ImageRecord:
"label: integer index into LabelCatalog").  Each item is annotated with its
encoded label; the first unknown label aborts with that label string
(`UnknownLabelError`). -/
def encodeItems {Image : Type} :
    List (Emitted Image) → List (Emitted Image × Nat) × Option String
  | [] => ([], none)
  | it :: its =>
    match index_of it.record.label _LABELS with
    | none => ([], some it.record.label)
    | some i =>
      let rest := encodeItems its
      ((it, i) :: rest.1, rest.2)

/-! ## `_load_tif` as an event trace -/

/-- Observable resource events of one `_load_tif(path)` call (lines
127–130). -/
inductive TifEvent where
  | fileOpen
  | decodeOpen
  | decodeFailed
  | fileClose
  | arrayConvert
deriving Repr, DecidableEq

/-- Event order of `_load_tif` (lines 127–130), by the statement order of the
source: the `with` block opens the `GFile` handle, `PIL_Image.open(fp)` runs
inside it (raising models a decode failure), the block's exit closes the
handle on both paths, and only then — outside the `with` block — does
`return np.array(image)` materialize the pixel array. -/
def load_tif_events (pilOk : Bool) : List TifEvent :=
  if pilOk then
    [TifEvent.fileOpen, TifEvent.decodeOpen, TifEvent.fileClose,
     TifEvent.arrayConvert]
  else
    [TifEvent.fileOpen, TifEvent.decodeFailed, TifEvent.fileClose]

/-! ## Concrete trees and decoders used in witnesses and counterexamples -/

/-- A decoder that succeeds on every path: a tree of valid images. -/
def decAll : String → Option Nat := fun _ => some 0

/-- A decoder whose only failure is the file `b.tif` of the `agricultural`
folder under the root `root`: one corrupt file among valid ones. -/
def decBad : String → Option Nat :=
  fun s => if s = "root/agricultural/b.tif" then none else some 0

/-- The spec §8 example layout: `agricultural/a.tif`, `agricultural/b.tif`,
`beach/c.tif`. -/
def treeEx : List LabelDir :=
  [⟨"agricultural", ["a.tif", "b.tif"]⟩, ⟨"beach", ["c.tif"]⟩]

/-- Two label folders holding the same base filename. -/
def treeDup : List LabelDir :=
  [⟨"agricultural", ["a.tif"]⟩, ⟨"beach", ["a.tif"]⟩]

/-- A catalog folder next to one whose name is outside the catalog. -/
def treeUnk : List LabelDir :=
  [⟨"agricultural", ["a.tif"]⟩, ⟨"zzz", ["b.tif"]⟩]

/-- One label folder holding only a non-`*.tif` entry. -/
def treeNoTif : List LabelDir :=
  [⟨"agricultural", ["readme.txt"]⟩]

/-! ## Basic lemmas about the embedded pieces -/

/-- The version-gated yield produces an item whose underlying record is the
record just built, whatever the gate says. -/
theorem Emitted.record_ite {Image : Type} (s3 : Bool) (k : String)
    (r : Record Image) :
    (if s3 then Emitted.keyed k r else Emitted.unkeyed r).record = r := by
  cases s3 <;> rfl

/-- Scanning characters that contain no slash just appends them to the
current component. -/
theorem foldl_basenameStep_no_slash (ds : List Char) (acc : List Char)
    (h : '/' ∉ ds) : ds.foldl basenameStep acc = acc ++ ds := by
  induction ds generalizing acc with
  | nil => simp
  | cons d ds ih =>
    have hd : d ≠ '/' := fun hc => h (hc ▸ List.mem_cons_self d ds)
    have hds : '/' ∉ ds := fun hc => h (List.mem_cons_of_mem d hc)
    simp only [List.foldl_cons, basenameStep, if_neg (Ne.symm hd ∘ Eq.symm)]
    rw [ih _ hds]
    simp [List.concat_eq_append]

/-- A slash resets the scan: everything before the last slash is ignored. -/
theorem foldl_basenameStep_append_slash (cs ds : List Char) (acc : List Char) :
    (cs ++ '/' :: ds).foldl basenameStep acc = ds.foldl basenameStep [] := by
  rw [List.foldl_append]
  simp [List.foldl_cons, basenameStep]

/-- `os.path.basename` of a string with no slash is the string itself. -/
theorem basename_no_slash (f : String) (hf : '/' ∉ f.data) :
    basename f = f := by
  unfold basename
  rw [foldl_basenameStep_no_slash f.data [] hf]
  simp

/-- `os.path.basename` after `os.path.join` recovers a slash-free final
component. -/
theorem basename_osPathJoin (a f : String) (hf : '/' ∉ f.data) :
    basename (osPathJoin a f) = f := by
  have hsw : startsWithSlash f = false := by
    unfold startsWithSlash
    cases hd : f.data with
    | nil => rfl
    | cons c cs =>
      have : c ≠ '/' := fun hc => hf (by rw [hd, hc]; exact List.mem_cons_self _ _)
      simp [this]
  unfold osPathJoin
  rw [hsw]
  simp only [Bool.false_eq_true, if_false]
  by_cases hempty : a = "" ∨ endsWithSlash a
  · rw [if_pos (by simpa using hempty)]
    rcases hempty with hempty | hslash
    · subst hempty
      unfold basename
      rw [String.data_append]
      simp [foldl_basenameStep_no_slash f.data [] hf]
    · unfold endsWithSlash at hslash
      have hlast : a.data.getLast? = some '/' := by simpa using hslash
      have hsplit : a.data.dropLast ++ ['/'] = a.data :=
        List.dropLast_append_getLast? '/' hlast
      unfold basename
      rw [String.data_append, ← hsplit, List.append_assoc, List.singleton_append,
        foldl_basenameStep_append_slash, foldl_basenameStep_no_slash f.data [] hf]
      simp
  · rw [if_neg (by simpa using hempty)]
    unfold basename
    rw [String.data_append, String.data_append]
    have : ("/" : String).data = ['/'] := rfl
    rw [this, List.append_assoc, List.singleton_append,
      foldl_basenameStep_append_slash, foldl_basenameStep_no_slash f.data [] hf]
    simp

/-- `basename` of a full matched path is the base filename. -/
theorem basename_fullPath (path label f : String) (hf : '/' ∉ f.data) :
    basename (fullPath path label f) = f :=
  basename_osPathJoin (osPathJoin path label) f hf

/-- `index_of` finds every member of the catalog. -/
theorem index_of_isSome_of_mem (a : String) (l : List String) (h : a ∈ l) :
    (index_of a l).isSome = true := by
  induction l with
  | nil => cases h
  | cons b bs ih =>
    unfold index_of
    by_cases hb : b = a
    · simp [hb]
    · have : a ∈ bs := by
        rcases List.mem_cons.mp h with h1 | h1
        · exact absurd h1.symm hb
        · exact h1
      simp only [if_neg hb]
      cases hio : index_of a bs with
      | none => rw [hio] at ih; exact absurd (ih this) (by simp)
      | some i => simp

/-- `index_of` fails exactly on names outside the catalog. -/
theorem index_of_eq_none_of_not_mem (a : String) (l : List String)
    (h : a ∉ l) : index_of a l = none := by
  induction l with
  | nil => rfl
  | cons b bs ih =>
    unfold index_of
    have hb : b ≠ a := fun hc => h (hc ▸ List.mem_cons_self b bs)
    have hbs : a ∉ bs := fun hc => h (List.mem_cons_of_mem b hc)
    rw [if_neg hb, ih hbs]
    rfl

/-! ## The generator run over the flattened matched-file sequence -/

/-- One label folder's inner loop is the flattened run over its matches. -/
theorem genFiles_eq_genSpec {Image : Type} (s3 : Bool)
    (dec : String → Option Image) (path label : String) (fs : List String) :
    genFiles s3 dec path label fs
      = genSpec s3 dec path (fs.map fun f => (label, f)) := by
  induction fs with
  | nil => rfl
  | cons f fs ih =>
    simp only [List.map_cons, genFiles, genSpec]
    cases dec (fullPath path label f) with
    | none => rfl
    | some img => simp [ih]

/-- Composing two flattened runs: the first error wins, items after it are
dropped. -/
theorem genSpec_append {Image : Type} (s3 : Bool) (dec : String → Option Image)
    (path : String) (qs rs : List (String × String)) :
    genSpec s3 dec path (qs ++ rs)
      = ((genSpec s3 dec path qs).1 ++
          (if (genSpec s3 dec path qs).2.isSome then []
           else (genSpec s3 dec path rs).1),
         ((genSpec s3 dec path qs).2).or (genSpec s3 dec path rs).2) := by
  induction qs with
  | nil => simp [genSpec]
  | cons q qs ih =>
    cases hd : dec (fullPath path q.1 q.2) with
    | none => simp [genSpec, hd, Option.or]
    | some img =>
      simp only [List.cons_append, genSpec, hd, ih]
      cases h2 : (genSpec s3 dec path qs).2 <;> simp [ih, h2, Option.or]

/-- `_generate_examples` is the flattened run over [matchedFiles]. -/
theorem generate_eq_genSpec {Image : Type} (s3 : Bool)
    (dec : String → Option Image) (path : String) (tree : List LabelDir) :
    _generate_examples s3 dec path tree
      = genSpec s3 dec path (matchedFiles tree) := by
  induction tree with
  | nil => rfl
  | cons d ds ih =>
    simp only [_generate_examples, matchedFiles, List.flatMap_cons]
    rw [genFiles_eq_genSpec, genSpec_append]
    cases h2 : (genSpec s3 dec path ((d.files.filter isTif).map
        fun f => (d.name, f))).2 with
    | some e => simp [Option.or]
    | none => simp [Option.or, ih, matchedFiles]

/-- When every matched file decodes, the run yields one item per matched
file: no error, one record per file, each record labelled by its folder's
name and named by the basename of its full path, and conversely every
matched folder contributes an item carrying its name. -/
theorem genSpec_total {Image : Type} (s3 : Bool) (dec : String → Option Image)
    (path : String) (qs : List (String × String))
    (h : ∀ q ∈ qs, decOk dec path q = true) :
    (genSpec s3 dec path qs).2 = none ∧
    (genSpec s3 dec path qs).1.length = qs.length ∧
    (∀ e ∈ (genSpec s3 dec path qs).1, ∃ q ∈ qs,
        e.record.label = q.1 ∧
        e.record.filename = basename (fullPath path q.1 q.2) ∧
        dec (fullPath path q.1 q.2) = some e.record.image) ∧
    (∀ q ∈ qs, ∃ e ∈ (genSpec s3 dec path qs).1, e.record.label = q.1) := by
  induction qs with
  | nil => exact ⟨rfl, rfl, by simp [genSpec], by simp⟩
  | cons q qs ih =>
    have hq : decOk dec path q = true := h q (List.mem_cons_self q qs)
    have hqs : ∀ r ∈ qs, decOk dec path r = true :=
      fun r hr => h r (List.mem_cons_of_mem q hr)
    obtain ⟨img, himg⟩ := Option.isSome_iff_exists.mp hq
    obtain ⟨ih1, ih2, ih3, ih4⟩ := ih hqs
    simp only [genSpec, himg]
    refine ⟨ih1, by simp [ih2], ?_, ?_⟩
    · intro e he
      simp only [List.mem_cons] at he
      rcases he with he | he
      · refine ⟨q, List.mem_cons_self q qs, ?_⟩
        subst he
        simp [Emitted.record_ite, himg]
      · obtain ⟨r, hr, hlab, hfn, hdec⟩ := ih3 e he
        exact ⟨r, List.mem_cons_of_mem q hr, hlab, hfn, hdec⟩
    · intro r hr
      simp only [List.mem_cons] at hr
      rcases hr with hr | hr
      · subst hr
        exact ⟨_, List.mem_cons_self _ _, by simp [Emitted.record_ite]⟩
      · obtain ⟨e, he, hlab⟩ := ih4 r hr
        exact ⟨e, List.mem_cons_of_mem _ he, hlab⟩

/-- The items of a run are those of the run over the prefix of files that
decode; the error is the full path of the first file that does not. -/
theorem genSpec_takeWhile_dropWhile {Image : Type} (s3 : Bool)
    (dec : String → Option Image) (path : String)
    (qs : List (String × String)) :
    (genSpec s3 dec path qs).1
      = (genSpec s3 dec path (qs.takeWhile (decOk dec path))).1 ∧
    (genSpec s3 dec path qs).2
      = ((qs.dropWhile (decOk dec path)).head?).map
          (fun q => fullPath path q.1 q.2) := by
  induction qs with
  | nil => exact ⟨rfl, rfl⟩
  | cons q qs ih =>
    by_cases hq : decOk dec path q = true
    · obtain ⟨img, himg⟩ := Option.isSome_iff_exists.mp hq
      rw [List.takeWhile_cons_of_pos hq, List.dropWhile_cons_of_pos hq]
      simp only [genSpec, himg]
      exact ⟨by simp [ih.1], ih.2⟩
    · have hnone : dec (fullPath path q.1 q.2) = none := by
        unfold decOk at hq
        cases hd : dec (fullPath path q.1 q.2) with
        | none => rfl
        | some img => rw [hd] at hq; simp at hq
      rw [List.takeWhile_cons_of_neg (by simp [hq]),
        List.dropWhile_cons_of_neg (by simp [hq])]
      simp [genSpec, hnone]

/-- Every item of a run comes from a matched pair: labelled by its folder
name, named by the basename of its full path. -/
theorem genSpec_items_src {Image : Type} (s3 : Bool)
    (dec : String → Option Image) (path : String)
    (qs : List (String × String)) :
    ∀ e ∈ (genSpec s3 dec path qs).1, ∃ q ∈ qs,
        e.record.label = q.1 ∧
        e.record.filename = basename (fullPath path q.1 q.2) := by
  induction qs with
  | nil => simp [genSpec]
  | cons q qs ih =>
    cases hd : dec (fullPath path q.1 q.2) with
    | none => simp [genSpec, hd]
    | some img =>
      intro e he
      simp only [genSpec, hd, List.mem_cons] at he
      rcases he with he | he
      · exact ⟨q, List.mem_cons_self q qs, by subst he; simp [Emitted.record_ite]⟩
      · obtain ⟨r, hr, h1, h2⟩ := ih e he
        exact ⟨r, List.mem_cons_of_mem q hr, h1, h2⟩

/-- Under the keyed gate the keys of a run form a sublist of the basenames of
the matched paths. -/
theorem keysOf_genSpec_sublist {Image : Type} (dec : String → Option Image)
    (path : String) (qs : List (String × String)) :
    List.Sublist (keysOf (genSpec true dec path qs).1)
      (qs.map fun q => basename (fullPath path q.1 q.2)) := by
  induction qs with
  | nil => simp [genSpec, keysOf]
  | cons q qs ih =>
    cases hd : dec (fullPath path q.1 q.2) with
    | none =>
      simp only [genSpec, hd, keysOf, List.filterMap_nil, List.map_cons]
      exact List.nil_sublist _
    | some img =>
      simp only [genSpec, hd, keysOf, List.filterMap_cons, List.map_cons]
      exact List.Sublist.cons₂ _ ih

/-- Under the keyed gate every item is a `(filename, record)` pair. -/
theorem genSpec_keyed_shape {Image : Type} (dec : String → Option Image)
    (path : String) (qs : List (String × String)) :
    ∀ e ∈ (genSpec true dec path qs).1,
      e = Emitted.keyed e.record.filename e.record := by
  induction qs with
  | nil => simp [genSpec]
  | cons q qs ih =>
    cases hd : dec (fullPath path q.1 q.2) with
    | none => simp [genSpec, hd]
    | some img =>
      intro e he
      simp only [genSpec, hd, if_true, List.mem_cons] at he
      rcases he with he | he
      · subst he; rfl
      · exact ih e he

/-- Under the unkeyed gate every item is a bare record. -/
theorem genSpec_unkeyed_shape {Image : Type} (dec : String → Option Image)
    (path : String) (qs : List (String × String)) :
    ∀ e ∈ (genSpec false dec path qs).1, e = Emitted.unkeyed e.record := by
  induction qs with
  | nil => simp [genSpec]
  | cons q qs ih =>
    cases hd : dec (fullPath path q.1 q.2) with
    | none => simp [genSpec, hd]
    | some img =>
      intro e he
      simp only [genSpec, hd, if_false, List.mem_cons] at he
      rcases he with he | he
      · subst he; rfl
      · exact ih e he

/-- The two gates yield the same underlying records and the same error. -/
theorem genSpec_strip {Image : Type} (s3 s3' : Bool)
    (dec : String → Option Image) (path : String)
    (qs : List (String × String)) :
    ((genSpec s3 dec path qs).1).map Emitted.record
        = ((genSpec s3' dec path qs).1).map Emitted.record ∧
    (genSpec s3 dec path qs).2 = (genSpec s3' dec path qs).2 := by
  induction qs with
  | nil => exact ⟨rfl, rfl⟩
  | cons q qs ih =>
    cases hd : dec (fullPath path q.1 q.2) with
    | none => simp [genSpec, hd]
    | some img =>
      simp only [genSpec, hd, List.map_cons]
      exact ⟨by rw [Emitted.record_ite, Emitted.record_ite, ih.1], ih.2⟩

/-! ## Lemmas about the encoding stage and matched files -/

/-- When every pulled item's label is in the catalog, encoding annotates each
item with its catalog index and emits all of them. -/
theorem encodeItems_total {Image : Type} (its : List (Emitted Image))
    (h : ∀ it ∈ its, (index_of it.record.label _LABELS).isSome = true) :
    (encodeItems its).2 = none ∧
    (encodeItems its).1.length = its.length ∧
    ∀ e ∈ (encodeItems its).1,
      e.1 ∈ its ∧ index_of e.1.record.label _LABELS = some e.2 := by
  induction its with
  | nil => exact ⟨rfl, rfl, by simp [encodeItems]⟩
  | cons it its ih =>
    have hit := h it (List.mem_cons_self it its)
    obtain ⟨i, hi⟩ := Option.isSome_iff_exists.mp hit
    obtain ⟨ih1, ih2, ih3⟩ := ih fun r hr => h r (List.mem_cons_of_mem it hr)
    simp only [encodeItems, hi]
    refine ⟨ih1, by simp [ih2], ?_⟩
    intro e he
    simp only [List.mem_cons] at he
    rcases he with he | he
    · subst he
      exact ⟨List.mem_cons_self it its, hi⟩
    · obtain ⟨h1, h2⟩ := ih3 e he
      exact ⟨List.mem_cons_of_mem it h1, h2⟩

/-- If some pulled item carries a label outside the catalog, encoding
aborts. -/
theorem encodeItems_err {Image : Type} (its : List (Emitted Image))
    (h : ∃ it ∈ its, index_of it.record.label _LABELS = none) :
    ((encodeItems its).2).isSome = true := by
  induction its with
  | nil => obtain ⟨it, hit, _⟩ := h; cases hit
  | cons it its ih =>
    obtain ⟨r, hr, hnone⟩ := h
    cases hi : index_of it.record.label _LABELS with
    | none => simp [encodeItems, hi]
    | some i =>
      simp only [encodeItems, hi]
      rcases List.mem_cons.mp hr with hr1 | hr1
      · subst hr1; rw [hi] at hnone; cases hnone
      · exact ih ⟨r, hr1, hnone⟩

/-- Every item the encoding stage lets through has a label in the catalog. -/
theorem encodeItems_known {Image : Type} (its : List (Emitted Image)) :
    ∀ e ∈ (encodeItems its).1,
      (index_of e.1.record.label _LABELS).isSome = true := by
  induction its with
  | nil => simp [encodeItems]
  | cons it its ih =>
    cases hi : index_of it.record.label _LABELS with
    | none => simp [encodeItems, hi]
    | some i =>
      intro e he
      simp only [encodeItems, hi, List.mem_cons] at he
      rcases he with he | he
      · subst he; simp [hi]
      · exact ih e he

/-- Unfolding membership in the flattened matched-file list. -/
theorem mem_matchedFiles {q : String × String} {tree : List LabelDir} :
    q ∈ matchedFiles tree
      ↔ ∃ d ∈ tree, d.name = q.1 ∧ q.2 ∈ d.files ∧ isTif q.2 = true := by
  unfold matchedFiles
  rw [List.mem_flatMap]
  constructor
  · rintro ⟨d, hd, hq⟩
    obtain ⟨f, hf, hfq⟩ := List.mem_map.mp hq
    obtain ⟨hmem, htif⟩ := List.mem_filter.mp hf
    exact ⟨d, hd, by rw [← hfq], by rw [← hfq]; exact ⟨hmem, htif⟩⟩
  · rintro ⟨d, hd, hname, hmem, htif⟩
    refine ⟨d, hd, List.mem_map.mpr ⟨q.2, List.mem_filter.mpr ⟨hmem, htif⟩, ?_⟩⟩
    rw [hname]

/-- The number of matched files is the sum over folders of the number of
entries passing the extension filter. -/
theorem matchedFiles_length (tree : List LabelDir) :
    (matchedFiles tree).length
      = (tree.map fun d => (d.files.filter isTif).length).sum := by
  simp only [matchedFiles, List.length_flatMap]
  congr 1
  apply List.map_congr_left
  intro d _
  simp [Function.comp]

/-! ## Claims -/

/-- C1: for every directory tree whose matched files all decode and whose
label folders are named from the catalog, `_generate_examples` yields exactly
the sum over label folders of their `*.tif`-matching file counts, and — after
the framework's label encoding — each emitted record's label is the catalog
index of the folder containing the file. -/
theorem C1_record_count_and_label_index {Image : Type} (s3 : Bool)
    (dec : String → Option Image) (path : String) (tree : List LabelDir)
    (hdec : ∀ q ∈ matchedFiles tree, decOk dec path q = true)
    (hlab : ∀ d ∈ tree, d.name ∈ _LABELS) :
    (_generate_examples s3 dec path tree).2 = none ∧
    (_generate_examples s3 dec path tree).1.length
      = (tree.map fun d => (d.files.filter isTif).length).sum ∧
    (encodeItems (_generate_examples s3 dec path tree).1).2 = none ∧
    (encodeItems (_generate_examples s3 dec path tree).1).1.length
      = (tree.map fun d => (d.files.filter isTif).length).sum ∧
    ∀ e ∈ (encodeItems (_generate_examples s3 dec path tree).1).1,
      ∃ d ∈ tree, e.1.record.label = d.name ∧
        index_of d.name _LABELS = some e.2 := by
  obtain ⟨h1, h2, h3, _⟩ := genSpec_total s3 dec path (matchedFiles tree) hdec
  rw [generate_eq_genSpec]
  have hknown : ∀ it ∈ (genSpec s3 dec path (matchedFiles tree)).1,
      (index_of it.record.label _LABELS).isSome = true := by
    intro it hit
    obtain ⟨q, hq, hlabq, _, _⟩ := h3 it hit
    obtain ⟨d, hd, hname, _, _⟩ := mem_matchedFiles.mp hq
    rw [hlabq, ← hname]
    exact index_of_isSome_of_mem d.name _LABELS (hlab d hd)
  obtain ⟨e1, e2, e3⟩ := encodeItems_total _ hknown
  refine ⟨h1, ?_, e1, ?_, ?_⟩
  · rw [h2, matchedFiles_length]
  · rw [e2, h2, matchedFiles_length]
  · intro e he
    obtain ⟨hmem, hidx⟩ := e3 e he
    obtain ⟨q, hq, hlabq, _, _⟩ := h3 e.1 hmem
    obtain ⟨d, hd, hname, _, _⟩ := mem_matchedFiles.mp hq
    refine ⟨d, hd, hlabq.trans hname.symm, ?_⟩
    rw [hname, ← hlabq]
    exact hidx

/-- Witness for C1 on the spec's example tree. -/
theorem C1_witness :
    (_generate_examples true decAll "root" treeEx).1.length
      = (treeEx.map fun d => (d.files.filter isTif).length).sum :=
  (C1_record_count_and_label_index true decAll "root" treeEx (by decide)
    (by decide)).2.1

/-- C2: on any input tree, a version that implements the keyed-record scheme
and one that does not yield the same underlying records and the same error;
the keyed run wraps each record as a `(filename, record)` pair and the
unkeyed run emits the bare record.  `VERSION` is below the threshold and all
`SUPPORTED_VERSIONS` are at or above it. -/
theorem C2_keyed_unkeyed_refinement {Image : Type}
    (dec : String → Option Image) (path : String) (tree : List LabelDir)
    (v w : Version) (hv : implementsS3 v = true)
    (hw : implementsS3 w = false) :
    ((_generate_examples (implementsS3 v) dec path tree).1).map Emitted.record
      = ((_generate_examples (implementsS3 w) dec path tree).1).map
          Emitted.record ∧
    (_generate_examples (implementsS3 v) dec path tree).2
      = (_generate_examples (implementsS3 w) dec path tree).2 ∧
    (∀ e ∈ (_generate_examples (implementsS3 v) dec path tree).1,
        e = Emitted.keyed e.record.filename e.record) ∧
    (∀ e ∈ (_generate_examples (implementsS3 w) dec path tree).1,
        e = Emitted.unkeyed e.record) ∧
    implementsS3 VERSION = false ∧
    (∀ u ∈ SUPPORTED_VERSIONS, implementsS3 u = true) := by
  rw [hv, hw, generate_eq_genSpec, generate_eq_genSpec]
  obtain ⟨hs1, hs2⟩ := genSpec_strip true false dec path (matchedFiles tree)
  exact ⟨hs1, hs2, genSpec_keyed_shape dec path _,
    genSpec_unkeyed_shape dec path _, by decide, by decide⟩

/-- Witness for C2: version `1.0.0` against `VERSION = 0.0.1`. -/
theorem C2_witness :
    ((_generate_examples (implementsS3 ⟨1, 0, 0⟩) decAll "root" treeEx).1).map
        Emitted.record
      = ((_generate_examples (implementsS3 VERSION) decAll "root"
          treeEx).1).map Emitted.record :=
  (C2_keyed_unkeyed_refinement decAll "root" treeEx ⟨1, 0, 0⟩ VERSION
    (by decide) (by decide)).1

/-- C3 as stated fails: nothing stops two label folders from holding the same
base filename, and then the keyed run emits the same key twice. -/
theorem C3_counterexample :
    ¬ (keysOf (_generate_examples true decAll "root" treeDup).1).Nodup := by
  decide

/-- C3 amended: when the matched base filenames are pairwise distinct across
all label folders (as in the actual archive) and contain no slash, the keys
emitted under the keyed-record version are pairwise distinct. -/
theorem C3_keys_distinct {Image : Type} (dec : String → Option Image)
    (path : String) (tree : List LabelDir)
    (hs : ∀ d ∈ tree, ∀ f ∈ d.files, '/' ∉ f.data)
    (hu : ((matchedFiles tree).map Prod.snd).Nodup) :
    (keysOf (_generate_examples true dec path tree).1).Nodup := by
  rw [generate_eq_genSpec]
  have hsub := keysOf_genSpec_sublist dec path (matchedFiles tree)
  have hmapeq :
      ((matchedFiles tree).map fun q => basename (fullPath path q.1 q.2))
        = (matchedFiles tree).map Prod.snd := by
    apply List.map_congr_left
    intro q hq
    obtain ⟨d, hd, _, hmem, _⟩ := mem_matchedFiles.mp hq
    exact basename_fullPath path q.1 q.2 (hs d hd q.2 hmem)
  rw [hmapeq] at hsub
  exact List.Nodup.sublist hsub hu

/-- Witness for the amended C3 on the spec's example tree. -/
theorem C3_witness :
    (keysOf (_generate_examples true decAll "root" treeEx).1).Nodup :=
  C3_keys_distinct decAll "root" treeEx (by decide) (by decide)

/-- C4: if some matched file fails to decode, the run ends with the error
naming the first failing path, the items yielded are exactly those of the
prefix of matched files before that failure (no skip, no retry, nothing
after it), and their count is the length of that prefix. -/
theorem C4_decode_failure_failfast {Image : Type} (s3 : Bool)
    (dec : String → Option Image) (path : String) (tree : List LabelDir)
    (h : ∃ q ∈ matchedFiles tree, decOk dec path q = false) :
    ((_generate_examples s3 dec path tree).2).isSome = true ∧
    (_generate_examples s3 dec path tree).2
      = ((matchedFiles tree).dropWhile (decOk dec path)).head?.map
          (fun q => fullPath path q.1 q.2) ∧
    (_generate_examples s3 dec path tree).1
      = (genSpec s3 dec path
          ((matchedFiles tree).takeWhile (decOk dec path))).1 ∧
    (_generate_examples s3 dec path tree).1.length
      = ((matchedFiles tree).takeWhile (decOk dec path)).length := by
  rw [generate_eq_genSpec]
  obtain ⟨ht, hd2⟩ := genSpec_takeWhile_dropWhile s3 dec path (matchedFiles tree)
  have hdw : (matchedFiles tree).dropWhile (decOk dec path) ≠ [] := by
    intro hnil
    obtain ⟨q, hq, hfail⟩ := h
    have := (List.dropWhile_eq_nil_iff).mp hnil q hq
    rw [hfail] at this
    simp at this
  have hlen : (genSpec s3 dec path
        ((matchedFiles tree).takeWhile (decOk dec path))).1.length
      = ((matchedFiles tree).takeWhile (decOk dec path)).length :=
    (genSpec_total s3 dec path _ fun q hq => List.mem_takeWhile_imp hq).2.1
  refine ⟨?_, hd2, ht, by rw [ht, hlen]⟩
  obtain ⟨q, qs, hqs⟩ := List.exists_cons_of_ne_nil hdw
  rw [hd2, hqs]
  rfl

/-- Witness for C4: one corrupt file (`agricultural/b.tif`) among valid
ones. -/
theorem C4_witness :
    ((_generate_examples true decBad "root" treeEx).2).isSome = true :=
  (C4_decode_failure_failfast true decBad "root" treeEx (by decide)).1

/-- C5: a label-level directory named outside the catalog makes the encoding
stage abort with its unknown label, and no record from that directory is
emitted. -/
theorem C5_unknown_label_aborts {Image : Type} (s3 : Bool)
    (dec : String → Option Image) (path : String) (tree : List LabelDir)
    (d : LabelDir) (hd : d ∈ tree) (hunk : d.name ∉ _LABELS)
    (hfile : ∃ f ∈ d.files, isTif f = true)
    (hdec : ∀ q ∈ matchedFiles tree, decOk dec path q = true) :
    ((encodeItems (_generate_examples s3 dec path tree).1).2).isSome = true ∧
    ∀ e ∈ (encodeItems (_generate_examples s3 dec path tree).1).1,
      e.1.record.label ≠ d.name := by
  rw [generate_eq_genSpec]
  obtain ⟨f, hf, htif⟩ := hfile
  have hq : (d.name, f) ∈ matchedFiles tree :=
    mem_matchedFiles.mpr ⟨d, hd, rfl, hf, htif⟩
  obtain ⟨_, _, _, h4⟩ := genSpec_total s3 dec path (matchedFiles tree) hdec
  obtain ⟨e, he, hlab⟩ := h4 (d.name, f) hq
  have hnone : index_of d.name _LABELS = none :=
    index_of_eq_none_of_not_mem d.name _LABELS hunk
  refine ⟨encodeItems_err _ ⟨e, he, by rw [hlab]; exact hnone⟩, ?_⟩
  intro e' he' hcontra
  have hk := encodeItems_known _ e' he'
  rw [hcontra, hnone] at hk
  simp at hk

/-- Witness for C5: folder `zzz` is not in the catalog. -/
theorem C5_witness :
    ((encodeItems
        (_generate_examples true decAll "root" treeUnk).1).2).isSome
      = true :=
  (C5_unknown_label_aborts true decAll "root" treeUnk ⟨"zzz", ["b.tif"]⟩
    (by decide) (by decide) (by decide) (by decide)).1

/-- C6: the catalog holds 21 pairwise-distinct names; `index_of` sends each
name to its position, a value in `[0, 21)`, and distinct names get distinct
indices. -/
theorem C6_catalog_index_injective :
    _LABELS.length = 21 ∧ _LABELS.Nodup ∧
    (∀ n ∈ _LABELS, ∃ i ∈ List.range 21,
        index_of n _LABELS = some i ∧ _LABELS[i]? = some n) ∧
    (∀ m ∈ _LABELS, ∀ n ∈ _LABELS,
        index_of m _LABELS = index_of n _LABELS → m = n) := by
  decide

/-- Witness for C6 at the name `beach`. -/
theorem C6_witness :
    ∃ i ∈ List.range 21, index_of "beach" _LABELS = some i ∧
      _LABELS[i]? = some "beach" :=
  C6_catalog_index_injective.2.2.1 "beach" (by decide)

/-- C7: for every fetched root, `_split_generators` returns exactly one
split, named "train", with one shard, rooted at the fetched root joined with
`UCMerced_LandUse/Images`. -/
theorem C7_single_train_split (root : String) :
    _split_generators root
      = [⟨"train", 1, osPathJoin root "UCMerced_LandUse/Images"⟩] ∧
    (_split_generators root).length = 1 := by
  exact ⟨rfl, rfl⟩

/-- C8: every emitted record's filename field is the base filename of its
matched file with no directory components, and re-deriving the base filename
from the field gives the field back. -/
theorem C8_filename_roundtrip {Image : Type} (s3 : Bool)
    (dec : String → Option Image) (path : String) (tree : List LabelDir)
    (hs : ∀ d ∈ tree, ∀ f ∈ d.files, '/' ∉ f.data) :
    ∀ e ∈ (_generate_examples s3 dec path tree).1,
      (∃ d ∈ tree, ∃ f ∈ d.files, isTif f = true ∧ e.record.filename = f) ∧
      basename e.record.filename = e.record.filename := by
  rw [generate_eq_genSpec]
  intro e he
  obtain ⟨q, hq, hlab, hfn⟩ :=
    genSpec_items_src s3 dec path (matchedFiles tree) e he
  obtain ⟨d, hd, hname, hmem, htif⟩ := mem_matchedFiles.mp hq
  have hnoslash : '/' ∉ q.2.data := hs d hd q.2 hmem
  have hbase : basename (fullPath path q.1 q.2) = q.2 :=
    basename_fullPath path q.1 q.2 hnoslash
  rw [hfn, hbase]
  exact ⟨⟨d, hd, q.2, hmem, htif, rfl⟩, basename_no_slash q.2 hnoslash⟩

/-- Witness for C8 at the first record of the example tree. -/
theorem C8_witness :
    (∃ d ∈ treeEx, ∃ f ∈ d.files, isTif f = true ∧
        (Emitted.keyed "a.tif"
          (⟨0, "agricultural", "a.tif"⟩ : Record Nat)).record.filename = f) ∧
    basename (Emitted.keyed "a.tif"
        (⟨0, "agricultural", "a.tif"⟩ : Record Nat)).record.filename
      = (Emitted.keyed "a.tif"
          (⟨0, "agricultural", "a.tif"⟩ : Record Nat)).record.filename :=
  C8_filename_roundtrip true decAll "root" treeEx (by decide)
    (Emitted.keyed "a.tif" ⟨0, "agricultural", "a.tif"⟩) (by decide)

/-- C9 as stated fails: in `_load_tif` the `with` block closes the file
handle right after `PIL_Image.open`, and the `np.array` materialization that
completes the decode runs only after the close. -/
theorem C9_counterexample :
    TifEvent.arrayConvert ∈ load_tif_events true ∧
    ¬ ((load_tif_events true).indexOf TifEvent.arrayConvert
        < (load_tif_events true).indexOf TifEvent.fileClose) := by
  decide

/-- C9 amended: the handle is opened once and closed exactly once on both
outcomes — also when the decode-open raises — and the `PIL` open happens
inside the open–close scope; but the array materialization of the image runs
after the handle is closed, not before. -/
theorem C9_scoped_handle :
    (∀ ok : Bool,
        (load_tif_events ok).count TifEvent.fileOpen = 1 ∧
        (load_tif_events ok).count TifEvent.fileClose = 1 ∧
        (load_tif_events ok).indexOf TifEvent.fileOpen
          < (load_tif_events ok).indexOf TifEvent.fileClose) ∧
    (load_tif_events true).indexOf TifEvent.decodeOpen
      < (load_tif_events true).indexOf TifEvent.fileClose ∧
    (load_tif_events false).indexOf TifEvent.decodeFailed
      < (load_tif_events false).indexOf TifEvent.fileClose ∧
    (load_tif_events true).indexOf TifEvent.fileClose
      < (load_tif_events true).indexOf TifEvent.arrayConvert := by
  decide

/-- C10: entries failing the `*.tif` filter never influence the run, and a
rootless tree or one whose folders hold no matching file yields the empty
sequence with no error. -/
theorem C10_skip_nonmatching_and_empty {Image : Type} (s3 : Bool)
    (dec : String → Option Image) (path : String) (tree : List LabelDir) :
    _generate_examples s3 dec path
        (tree.map fun d => ⟨d.name, d.files.filter isTif⟩)
      = _generate_examples s3 dec path tree ∧
    _generate_examples s3 dec path ([] : List LabelDir) = ([], none) ∧
    ((∀ d ∈ tree, d.files.filter isTif = []) →
      _generate_examples s3 dec path tree = ([], none)) := by
  refine ⟨?_, rfl, ?_⟩
  · induction tree with
    | nil => rfl
    | cons d ds ih =>
      have hff : (d.files.filter isTif).filter isTif = d.files.filter isTif :=
        List.filter_eq_self.mpr fun a ha => (List.mem_filter.mp ha).2
      simp only [List.map_cons, _generate_examples, hff, ih]
  · induction tree with
    | nil => exact fun _ => rfl
    | cons d ds ih =>
      intro h
      have hd0 : d.files.filter isTif = [] := h d (List.mem_cons_self d ds)
      have ihds := ih fun d' hd' => h d' (List.mem_cons_of_mem d hd')
      simp [_generate_examples, hd0, genFiles, ihds]

/-- Witness for C10: a folder holding only `readme.txt` yields nothing. -/
theorem C10_witness :
    _generate_examples true decAll "root" treeNoTif
      = (([] : List (Emitted Nat)), none) :=
  (C10_skip_nonmatching_and_empty true decAll "root" treeNoTif).2.2 (by decide)
